import Mathlib

/-!
Shallow embedding of the `cp-linalg-lib` repository
(`src/types/matrix/matrix.h` and `src/algorithms/qr_algorithm.h`)
and verification of its specification claims.

A `Mat α` is the `matrix_lib::Matrix<T>`: a row count together with a flat
row-major buffer; the column count is derived exactly as in the source
(`Columns()` returns `buffer_.size() / rows_`, and `0` when `rows_ == 0`).
-/

namespace CpLinalg

/-- `matrix_lib::Matrix<T>`: row count `rows_` plus flat row-major buffer
`buffer_` (`src/types/matrix/matrix.h`, lines 303-305). -/
structure Mat (α : Type) where
  rows : Nat
  buffer : List α
deriving DecidableEq, Repr

variable {α : Type}

/-- `Matrix::Columns()` (matrix.h, lines 183-185):
`(rows_ == 0) ? 0 : buffer_.size() / rows_`. -/
def Mat.cols (m : Mat α) : Nat :=
  if m.rows = 0 then 0 else m.buffer.length / m.rows

/-- Unchecked element read at `(r, c)`: the buffer cell at flat index
`Columns() * r + c` (the access expression of `operator()`, matrix.h
line 172/178), with `0` returned out of bounds. -/
def Mat.mget [Zero α] (m : Mat α) (r c : Nat) : α :=
  m.buffer.getD (m.cols * r + c) 0

/-- `Matrix::operator()` with its contract (matrix.h, lines 175-179): the
assert `Columns() * row_idx + col_idx < buffer_.size()` is modelled as the
`none` result; otherwise the buffer cell at that flat index is returned. -/
def Mat.elemChecked (m : Mat α) (r c : Nat) : Option α :=
  if m.cols * r + c < m.buffer.length then m.buffer[m.cols * r + c]?
  else none

/-- `operator==` (matrix.h, lines 159-161): `lhs.buffer_ == rhs.buffer_`. -/
def matEq [DecidableEq α] (lhs rhs : Mat α) : Bool :=
  lhs.buffer == rhs.buffer

/-- The structural equality the spec describes (row count plus element-wise
buffer equality); written from the spec's words, to be compared with the
source's `matEq`. -/
def matEqPerSpec [DecidableEq α] (lhs rhs : Mat α) : Bool :=
  lhs.rows == rhs.rows && lhs.buffer == rhs.buffer

/-- `operator+` / `operator+=` (matrix.h, lines 82-103): element-wise sum
over the left operand's buffer indices (`buffer_[i] += rhs.buffer_[i]`).
The shape asserts are preconditions of the theorems that use it. -/
def matAdd [Add α] [Zero α] (lhs rhs : Mat α) : Mat α :=
  { rows := lhs.rows
    buffer := (List.range lhs.buffer.length).map
      (fun i => lhs.buffer.getD i 0 + rhs.buffer.getD i 0) }

/-- `operator-` / `operator-=` (matrix.h, lines 105-126): element-wise
difference over the left operand's buffer indices. -/
def matSub [Sub α] [Zero α] (lhs rhs : Mat α) : Mat α :=
  { rows := lhs.rows
    buffer := (List.range lhs.buffer.length).map
      (fun i => lhs.buffer.getD i 0 - rhs.buffer.getD i 0) }

/-- `operator*` (matrix.h, lines 128-145): the standard triple loop filling
an `lhs.Rows() x rhs.Columns()` result row-major, with
`result(i, j) = sum_k lhs(i, k) * rhs(k, j)`. -/
def matMul [Mul α] [AddCommMonoid α] (lhs rhs : Mat α) : Mat α :=
  { rows := lhs.rows
    buffer := (List.range (lhs.rows * rhs.cols)).map
      (fun t =>
        let i := t / rhs.cols
        let j := t % rhs.cols
        (Finset.range lhs.cols).sum (fun k => lhs.mget i k * rhs.mget k j)) }

/-- The diagonal constructor `Matrix(const Data &diag)` (matrix.h, lines
36-46): an `n x n` zero matrix whose `(i, i)` entry is set to `diag[i]`. -/
def Mat.fromDiag [Zero α] (diag : List α) : Mat α :=
  { rows := diag.length
    buffer := (List.range diag.length).foldl
      (fun b i => b.set (diag.length * i + i) (diag.getD i 0))
      (List.replicate (diag.length * diag.length) 0) }

/-- `Matrix::Identity(size, default_value)` (matrix.h, lines 266-268):
`Matrix(Data(size, default_value))`. -/
def Mat.identity [Zero α] (size : Nat) (v : α) : Mat α :=
  Mat.fromDiag (List.replicate size v)

/-- The buffer invariant `buffer_.size() == rows * columns` that every
constructed `Matrix` maintains (spec section 3). -/
def Mat.Wf (m : Mat α) : Prop :=
  m.buffer.length = m.rows * m.cols

/-- The index-taking `ApplyToEach` overload (matrix.h, lines 193-197): the
callback receives the element at flat index `i` together with the index
arguments `i / Rows()` and `i % Rows()`. -/
def Mat.applyToEachIdx [Inhabited α] (m : Mat α) (f : α → Nat → Nat → α) : Mat α :=
  { rows := m.rows
    buffer := (List.range m.buffer.length).map
      (fun i => f (m.buffer.getD i default) (i / m.rows) (i % m.rows)) }

/-- The scalar helpers the algorithms consume. `std::sqrt` and `std::abs`
are standard-library calls and `utils::Sign` lives outside the two source
files, so they are parameters of the embedding; the spec leaves the
`sign(0)` convention open (recommended `0`). -/
structure ScalarOps (α : Type) where
  sqrt : α → α
  abs : α → α
  sign : α → α

/-- The arithmetic core of `GetWilkinsonShift` (qr_algorithm.h, lines
15-20), on the three distinct entries `m00 = M(0,0)`, `a = M(0,1)`,
`m11 = M(1,1)` of the symmetric input:
`d = (m00 - m11) / 2`, `coefficient = |d| + sqrt(d*d + a*a)`,
result `m11 - Sign(d) * a * a / coefficient`. -/
def wilkinsonVal [Field α] (ops : ScalarOps α) (m00 a m11 : α) : α :=
  let d := (m00 - m11) / 2
  let coefficient := ops.abs d + ops.sqrt (d * d + a * a)
  m11 - ops.sign d * a * a / coefficient

/-- `GetWilkinsonShift` (qr_algorithm.h, lines 9-21) with its contract: the
three asserts (2x2 shape and symmetry) and the bound checks of every
`operator()` access are modelled as the `none` result. -/
def getWilkinsonShift [Field α] [DecidableEq α] (ops : ScalarOps α) (m : Mat α) :
    Option α :=
  if m.rows = 2 then
    if m.cols = 2 then
      match m.elemChecked 0 1, m.elemChecked 1 0 with
      | some a, some b =>
        if a = b then
          match m.elemChecked 0 0, m.elemChecked 1 1 with
          | some m00, some m11 => some (wilkinsonVal ops m00 a m11)
          | _, _ => none
        else none
      | _, _ => none
    else none
  else none

/-- `SpectralPair` (qr_algorithm.h, lines 23-27). -/
structure SpectralPair (α : Type) where
  D : Mat α
  Q : Mat α
deriving DecidableEq

/-- One iteration of the shifted QR eigen-iteration, written from the
spec's words (section 4.3): factor `D - shift*I` through the external
Householder collaborator `hqr` into `(Q, R)`, replace `D` by
`R*Q + shift*I`, multiply the accumulator on the right by `Q`, and round
the near-zero entries of `D` through the external `roundZeroes`. -/
def specDecompStep [Ring α] (hqr : Mat α → Mat α × Mat α)
    (roundZeroes : Mat α → Mat α) (shiftI : Mat α) (st : Mat α × Mat α) :
    Mat α × Mat α :=
  let QR := hqr (matSub st.1 shiftI)
  (roundZeroes (matAdd (matMul QR.2 QR.1) shiftI), matMul st.2 QR.1)

/-- The `for` loop of `GetRealSpecDecomposition` (qr_algorithm.h, lines
43-49), translated from the source with the collaborators `HouseholderQR`
and `RoundZeroes` (both outside the two source files) as parameters. -/
def specDecompLoop [Ring α] (hqr : Mat α → Mat α × Mat α)
    (rz : Mat α → Mat α) (shiftI : Mat α) :
    Nat → Mat α × Mat α → Mat α × Mat α
  | 0, st => st
  | n + 1, st =>
    let QR := hqr (matSub st.1 shiftI)
    let D' := rz (matAdd (matMul QR.2 QR.1) shiftI)
    specDecompLoop hqr rz shiftI n (D', matMul st.2 QR.1)

/-- `GetRealSpecDecomposition` (qr_algorithm.h, lines 29-52): seed
`D = copy of input`, `shift_I = Identity(D.Rows(), shift)`,
`transform = Identity(D.Rows())`, run the loop `it_cnt` times, return
`{D, transform}`.  The entry `IsHermitian` assert is a contract of the
external checks collaborator (not under `src/`) and does not affect the
iteration structure, so it is not part of this definition. -/
def getRealSpecDecomposition [Ring α] (hqr : Mat α → Mat α × Mat α)
    (rz : Mat α → Mat α) (matrix : Mat α) (shift : α) (it_cnt : Nat) :
    SpectralPair α :=
  let shiftI := Mat.identity matrix.rows shift
  let fin := specDecompLoop hqr rz shiftI it_cnt (matrix, Mat.identity matrix.rows 1)
  ⟨fin.1, fin.2⟩

/-- `DiagBasisQR` (qr_algorithm.h, lines 54-59). -/
structure DiagBasisQR (α : Type) where
  U : Mat α
  D : Mat α
  VT : Mat α
deriving DecidableEq

/-- One step `i` of the inner sweep of `BidiagonalAlgorithmQR`
(qr_algorithm.h, lines 86-99), parametric in the external collaborators
`GL` (`GivensLeftRotation`) and `GR` (`GivensRightRotation`), with the
source's evaluation order kept: the row-branch condition and its
`(S(i,i), S(i+1,i))` arguments read the matrix `S` already updated by the
column branch. -/
def sweepIter [Ring α] (gl gr : Mat α → Nat → Nat → α → α → Mat α)
    (shift : α) (st : Mat α × Mat α × Mat α) (i : Nat) :
    Mat α × Mat α × Mat α :=
  let U := st.1
  let S := st.2.1
  let VT := st.2.2
  let p1 : Mat α × Mat α :=
    if i + 1 < S.cols then
      let f := if 0 < i then S.mget (i - 1) i else S.mget 0 0 * S.mget 0 0 - shift
      let s := if 0 < i then S.mget (i - 1) (i + 1) else S.mget 0 1 * S.mget 0 0
      (gr S i (i + 1) f s, gl VT i (i + 1) f s)
    else (S, VT)
  let S1 := p1.1
  let VT1 := p1.2
  if i + 1 < S1.rows then
    (gr U i (i + 1) (S1.mget i i) (S1.mget (i + 1) i),
      gl S1 i (i + 1) (S1.mget i i) (S1.mget (i + 1) i), VT1)
  else (U, S1, VT1)

/-- The full inner sweep: `for (i = 0; i < size; ++i)` over `sweepIter`. -/
def bidiagSweep [Ring α] (gl gr : Mat α → Nat → Nat → α → α → Mat α)
    (shift : α) (size : Nat) (st : Mat α × Mat α × Mat α) :
    Mat α × Mat α × Mat α :=
  (List.range size).foldl (sweepIter gl gr shift) st

/-- Modelled from the spec: `GetSubmatrix({r1, r2}, {c1, c2})` (its source
is not under `src/`) extracts the rows `[r1, r2)` by columns `[c1, c2)`
block as a fresh matrix (spec section 4.4, step 1). -/
def getSubmatrix [Zero α] (m : Mat α) (r1 r2 c1 c2 : Nat) : Mat α :=
  { rows := r2 - r1
    buffer := (List.range ((r2 - r1) * (c2 - c1))).map
      (fun t => m.mget (r1 + t / (c2 - c1)) (c1 + t % (c2 - c1))) }

/-- `BidiagonalAlgorithmQR` (qr_algorithm.h, lines 61-105): per sweep,
form the trailing 2x2 block of the implicit tridiagonal, take its
Wilkinson shift, run the inner rotation sweep for `i` in `[0, size)`, and
round the near-zero entries of `S`; repeat `it_cnt` times.  `r`, `c` and
`size` are captured from the input before the loop, as in the source.
The 2x2 buffer `BB` is symmetric by construction (`BB(0,1) = BB(1,0)`), so
`GetWilkinsonShift`'s checked value on it is exactly `wilkinsonVal` of its
three distinct entries (see `getWilkinsonShift_on_symmetric`). -/
def bidiagonalAlgorithmQR [Field α] [DecidableEq α] (ops : ScalarOps α)
    (gl gr : Mat α → Nat → Nat → α → α → Mat α) (rz : Mat α → Mat α)
    (B : Mat α) (it_cnt : Nat) : DiagBasisQR α :=
  let r := B.rows
  let c := B.cols
  let size := min r c
  let step := fun (st : Mat α × Mat α × Mat α) =>
    let S := st.2.1
    let minor := getSubmatrix S (r - 2) r (c - 2) c
    let bb00 := minor.mget 0 0 * minor.mget 0 0 +
      (if 3 ≤ r then S.mget (r - 3) (c - 2) * S.mget (r - 3) (c - 2) else 0)
    let bb10 := minor.mget 0 0 * minor.mget 0 1
    let bb11 := minor.mget 0 1 * minor.mget 0 1 + minor.mget 1 1 * minor.mget 1 1
    let shift := wilkinsonVal ops bb00 bb10 bb11
    let st' := bidiagSweep gl gr shift size st
    (st'.1, rz st'.2.1, st'.2.2)
  let fin := step^[it_cnt] (Mat.identity r 1, B, Mat.identity c 1)
  ⟨fin.1, fin.2.1, fin.2.2⟩

/-- Modelled from the spec (section 6; `givens.h` is not under `src/`):
`GivensLeftRotation(M, i, j, a, b)` combines rows `i` and `j` of `M` by the
2x2 rotation with coefficients `(cs, sn)` derived from `(a, b)`; the
derivation is the collaborator's own and is a parameter `deriv`. -/
def givensLeftRot [Ring α] (deriv : α → α → α × α) (m : Mat α)
    (i j : Nat) (a b : α) : Mat α :=
  let cs := (deriv a b).1
  let sn := (deriv a b).2
  { rows := m.rows
    buffer := (List.range m.buffer.length).map
      (fun t =>
        let r := t / m.cols
        let c := t % m.cols
        if r = i then cs * m.mget i c + sn * m.mget j c
        else if r = j then cs * m.mget j c - sn * m.mget i c
        else m.buffer.getD t 0) }

/-- Modelled from the spec (section 6; `givens.h` is not under `src/`):
`GivensRightRotation(M, i, j, a, b)` combines columns `i` and `j` of `M` by
the 2x2 rotation with coefficients derived from `(a, b)`. -/
def givensRightRot [Ring α] (deriv : α → α → α × α) (m : Mat α)
    (i j : Nat) (a b : α) : Mat α :=
  let cs := (deriv a b).1
  let sn := (deriv a b).2
  { rows := m.rows
    buffer := (List.range m.buffer.length).map
      (fun t =>
        let r := t / m.cols
        let c := t % m.cols
        if c = i then cs * m.mget r i + sn * m.mget r j
        else if c = j then cs * m.mget r j - sn * m.mget r i
        else m.buffer.getD t 0) }

/-- One hop of the cycle-following index map of `Transpose` (matrix.h,
lines 247-249): `(swap_idx == last_idx) ? last_idx : (Rows() * swap_idx) %
last_idx`. -/
def tStep (R last j : Nat) : Nat :=
  if j = last then last else (R * j) % last

/-- `std::swap(buffer_[a], buffer_[b])` on the flat buffer (matrix.h, line
250); in `Transpose` both indices are always in bounds. -/
def listSwap (l : List α) (a b : Nat) : List α :=
  match l[a]?, l[b]? with
  | some x, some y => (l.set a y).set b x
  | _, _ => l

/-- The `do ... while (swap_idx != i)` loop of `Transpose` (matrix.h, lines
246-252), with explicit fuel; the fuel `buffer_.size() + 1` passed by
`Mat.transpose` always suffices because the cycle of `i` returns to `i`
within `buffer_.size()` hops. -/
def transCycle (R last i : Nat) : Nat → Nat → List α × List Bool → List α × List Bool
  | 0, _, st => st
  | fuel + 1, j, st =>
    let j' := tStep R last j
    let buf' := listSwap st.1 j' i
    let vis' := st.2.set j' true
    if j' = i then (buf', vis') else transCycle R last i fuel j' (buf', vis')

/-- The body of the outer `for` of `Transpose` (matrix.h, lines 240-253):
skip `i` when `visited[i]`, otherwise follow the cycle starting at `i`. -/
def transBody (R last fuel : Nat) (st : List α × List Bool) (i : Nat) :
    List α × List Bool :=
  if st.2.getD i false then st else transCycle R last i fuel i st

/-- `Matrix::Transpose` (matrix.h, lines 236-256): run the cycle-following
relocation for every `i` in `[1, buffer_.size())` over a `visited` list
seeded all-false, then set the row count to the old `Columns()`. -/
def Mat.transpose (m : Mat α) : Mat α :=
  let N := m.buffer.length
  let res := (List.range' 1 (N - 1)).foldl
    (transBody m.rows (N - 1) (N + 1)) (m.buffer, List.replicate N false)
  { rows := m.cols, buffer := res.1 }

/-- Invariant tying an intermediate state of `Transpose`'s outer loop to
the original buffer `b₀`: `P` is the set of flat indices already relocated
(a union of complete cycles inside `[1, last]`), the visited list marks
exactly `P`, relocated cells already hold their final values and all other
cells still hold their original ones. -/
def TransOuterInv (R last : Nat) (b₀ : List α) (N : Nat) (P : Nat → Prop)
    (st : List α × List Bool) : Prop :=
  (∀ n, P n → 0 < n ∧ n ≤ last) ∧
  (∀ n, P n → P (tStep R last n)) ∧
  (∀ n, P n → ∃ p, P p ∧ tStep R last p = n) ∧
  (∀ n, P n → st.2[n]? = some true) ∧
  (∀ n, ¬ P n → st.2[n]? = (List.replicate N false)[n]?) ∧
  (∀ n, P n → st.1[tStep R last n]? = b₀[n]?) ∧
  (∀ n, ¬ P n → st.1[n]? = b₀[n]?) ∧
  st.1.length = b₀.length ∧ st.2.length = N

/-- A raw coefficient derivation usable over any scalar type; one concrete
instantiation of the Givens collaborator's derivation parameter. -/
def derivRaw {α : Type} : α → α → α × α := fun a b => (a, b)

/-- Concrete rational-free scalar helpers for witnesses: square root is
looked up on the one value the witnesses need, absolute value and sign are
the exact rational ones with `sign 0 = 0`. -/
def ratOps : ScalarOps Rat :=
  { sqrt := fun x => if x = 1 then 1 else x
    abs := fun x => |x|
    sign := fun x => if x < 0 then -1 else if x = 0 then 0 else 1 }

-- ## Basic lemmas

theorem rangeMap_getElem? (n i : Nat) (f : Nat → α) :
    ((List.range n).map f)[i]? = if i < n then some (f i) else none := by
  by_cases h : i < n
  · simp [List.getElem?_map, List.getElem?_range, h]
  · rw [if_neg h]
    apply List.getElem?_eq_none
    simpa using Nat.le_of_not_lt h

theorem getD_eq_of_lt [Zero α] (l : List α) (i : Nat) (h : i < l.length) :
    l[i]? = some (l.getD i 0) := by
  rw [List.getD_eq_getElem?_getD, List.getElem?_eq_getElem h]
  rfl

theorem elemChecked_eq_mget [Zero α] (m : Mat α) (r c : Nat)
    (h : m.cols * r + c < m.buffer.length) :
    m.elemChecked r c = some (m.mget r c) := by
  rw [Mat.elemChecked, if_pos h, Mat.mget, getD_eq_of_lt _ _ h]

theorem four_le_length_of_two_two (m : Mat α) (hr : m.rows = 2)
    (hc : m.cols = 2) : 4 ≤ m.buffer.length := by
  rw [Mat.cols, hr] at hc
  simp at hc
  omega

theorem getWilkinsonShift_on_symmetric [Field α] [DecidableEq α]
    (ops : ScalarOps α) (m : Mat α) (hr : m.rows = 2) (hc : m.cols = 2)
    (hsym : m.mget 0 1 = m.mget 1 0) :
    getWilkinsonShift ops m =
      some (wilkinsonVal ops (m.mget 0 0) (m.mget 0 1) (m.mget 1 1)) := by
  have hlen : 4 ≤ m.buffer.length := four_le_length_of_two_two m hr hc
  have e01 : m.elemChecked 0 1 = some (m.mget 0 1) :=
    elemChecked_eq_mget m 0 1 (by rw [hc]; omega)
  have e10 : m.elemChecked 1 0 = some (m.mget 1 0) :=
    elemChecked_eq_mget m 1 0 (by rw [hc]; omega)
  have e00 : m.elemChecked 0 0 = some (m.mget 0 0) :=
    elemChecked_eq_mget m 0 0 (by rw [hc]; omega)
  have e11 : m.elemChecked 1 1 = some (m.mget 1 1) :=
    elemChecked_eq_mget m 1 1 (by rw [hc]; omega)
  rw [getWilkinsonShift, if_pos hr, if_pos hc, e01, e10]
  simp only [hsym, if_pos rfl]
  rw [e00, e11]
  simp

-- ## Claim theorems (first group)

/-- Claim C1, counterexample: the 2x3 and 3x2 matrices over the same
six-element buffer have different row counts, yet `operator==` (which
compares only the buffers, matrix.h line 160) declares them equal, so
equality is not structural over shape. -/
theorem matEq_not_structural :
    matEq (Mat.mk 2 [(1 : Int), 2, 3, 4, 5, 6])
        (Mat.mk 3 [(1 : Int), 2, 3, 4, 5, 6]) = true ∧
      (Mat.mk 2 [(1 : Int), 2, 3, 4, 5, 6]).rows ≠
        (Mat.mk 3 [(1 : Int), 2, 3, 4, 5, 6]).rows := by
  constructor
  · rfl
  · decide

/-- Claim C1, amended: `operator==` is element-wise buffer equality only;
the row counts are not compared, so two matrices with identical buffers but
different row counts compare equal. -/
theorem matEq_iff_buffer_eq [DecidableEq α] (lhs rhs : Mat α) :
    matEq lhs rhs = true ↔ lhs.buffer = rhs.buffer := by
  simp [matEq]

/-- Claim C8: addition and subtraction are inverse, `(A + B) - B == A` for
every pair of same-shaped matrices, where `==` is the source's
buffer-comparing `operator==`. -/
theorem addSub_inverse [AddGroup α] [DecidableEq α] (A B : Mat α)
    (hA : A.Wf) (hB : B.Wf) (hrows : A.rows = B.rows) (hcols : A.cols = B.cols) :
    matEq (matSub (matAdd A B) B) A = true := by
  rw [matEq_iff_buffer_eq]
  apply List.ext_getElem?
  intro k
  have hlenadd : (matAdd A B).buffer.length = A.buffer.length := by
    simp [matAdd]
  by_cases hk : k < A.buffer.length
  · rw [show (matSub (matAdd A B) B).buffer =
        (List.range (matAdd A B).buffer.length).map
          (fun i => (matAdd A B).buffer.getD i 0 - B.buffer.getD i 0) from rfl,
      rangeMap_getElem?, hlenadd, if_pos hk]
    have hadd : (matAdd A B).buffer.getD k 0 =
        A.buffer.getD k 0 + B.buffer.getD k 0 := by
      rw [List.getD_eq_getElem?_getD,
        show (matAdd A B).buffer =
          (List.range A.buffer.length).map
            (fun i => A.buffer.getD i 0 + B.buffer.getD i 0) from rfl,
        rangeMap_getElem?, if_pos hk]
      rfl
    rw [hadd, add_sub_cancel_right, getD_eq_of_lt A.buffer k hk]
  · rw [show (matSub (matAdd A B) B).buffer =
        (List.range (matAdd A B).buffer.length).map
          (fun i => (matAdd A B).buffer.getD i 0 - B.buffer.getD i 0) from rfl,
      rangeMap_getElem?, hlenadd, if_neg hk,
      List.getElem?_eq_none (Nat.le_of_not_lt hk)]

/-- Claim C8, witness at a concrete pair of two-by-two integer matrices. -/
theorem addSub_inverse_witness :
    matEq (matSub (matAdd (Mat.mk 2 [(1 : Int), 2, 3, 4]) (Mat.mk 2 [5, 6, 7, 8]))
        (Mat.mk 2 [5, 6, 7, 8])) (Mat.mk 2 [1, 2, 3, 4]) = true :=
  addSub_inverse (Mat.mk 2 [(1 : Int), 2, 3, 4]) (Mat.mk 2 [5, 6, 7, 8])
    rfl rfl rfl rfl

/-- Claim C9: `operator()` checks only the flat index
`Columns() * row + col` against the buffer size; and a matrix access with
`col >= Columns()` whose flat index is still inside the buffer is accepted
and returns the buffer cell at that flat position, which belongs to a row
strictly below `row`. -/
theorem elemChecked_flat_only (m : Mat α) (r c : Nat) :
    (m.elemChecked r c = none ↔ m.buffer.length ≤ m.cols * r + c) ∧
      (2 ≤ m.rows → 0 < m.cols → m.cols ≤ c → m.cols * r + c < m.buffer.length →
        m.elemChecked r c = m.buffer[m.cols * r + c]? ∧
          r < (m.cols * r + c) / m.cols) := by
  constructor
  · unfold Mat.elemChecked
    by_cases h : m.cols * r + c < m.buffer.length
    · rw [if_pos h]
      constructor
      · intro hnone
        rw [List.getElem?_eq_getElem h] at hnone
        exact absurd hnone (by simp)
      · intro hle
        exact absurd h (Nat.not_lt_of_le hle)
    · rw [if_neg h]
      exact ⟨fun _ => Nat.le_of_not_lt h, fun _ => rfl⟩
  · intro _ hc hcc hflat
    refine ⟨by rw [Mat.elemChecked, if_pos hflat], ?_⟩
    have h1 : m.cols * (r + 1) ≤ m.cols * r + c := by
      rw [Nat.mul_succ]
      exact Nat.add_le_add_left hcc _
    have h2 : r + 1 ≤ (m.cols * r + c) / m.cols := by
      rw [Nat.le_div_iff_mul_le hc]
      rw [Nat.mul_comm] at h1
      exact h1
    exact Nat.lt_of_lt_of_le (Nat.lt_succ_self r) h2

/-- Claim C9, witness: in the two-by-two integer matrix `[[1,2],[3,4]]` the
access `(0, 2)` has flat index `2 < 4`, is accepted, and yields `3`, the
first element of row one. -/
theorem elemChecked_flat_only_witness :
    (Mat.mk 2 [(1 : Int), 2, 3, 4]).elemChecked 0 2 = some 3 ∧
      (0 : Nat) < ((Mat.mk 2 [(1 : Int), 2, 3, 4]).cols * 0 + 2) /
        (Mat.mk 2 [(1 : Int), 2, 3, 4]).cols := by
  have h := (elemChecked_flat_only (Mat.mk 2 [(1 : Int), 2, 3, 4]) 0 2).2
    (by decide) (by decide) (by decide) (by decide)
  exact ⟨by rw [h.1]; rfl, h.2⟩

/-- Claim C10: the index-taking `ApplyToEach` hands the callback the index
pair `(i / Rows(), i % Rows())` for the element at flat index `i`; that pair
equals the element's true row-major `(row, column)` pair for every element
exactly when the matrix is square. -/
theorem applyToEachIdx_args [Inhabited α] (m : Mat α) (f : α → Nat → Nat → α)
    (hwf : m.Wf) (hr : 0 < m.rows) (hc : 0 < m.cols) :
    (∀ i < m.buffer.length,
        (m.applyToEachIdx f).buffer[i]? =
          some (f (m.buffer.getD i default) (i / m.rows) (i % m.rows))) ∧
      ((∀ i < m.buffer.length, (i / m.rows, i % m.rows) = (i / m.cols, i % m.cols)) ↔
        m.rows = m.cols) := by
  constructor
  · intro i hi
    rw [show (m.applyToEachIdx f).buffer =
        (List.range m.buffer.length).map
          (fun i => f (m.buffer.getD i default) (i / m.rows) (i % m.rows)) from rfl,
      rangeMap_getElem?, if_pos hi]
  · constructor
    · intro H
      by_contra hne
      rcases Nat.lt_or_ge m.rows m.cols with hlt | hge
      · have hcols2 : 2 ≤ m.cols := Nat.lt_of_le_of_lt hr hlt
        have hmem : m.rows < m.buffer.length := by
          rw [hwf]
          calc m.rows = m.rows * 1 := by ring
            _ < m.rows * m.cols := mul_lt_mul_of_pos_left hcols2 hr
        have := H m.rows hmem
        rw [Nat.div_self hr, Nat.mod_self,
          Nat.div_eq_of_lt hlt, Nat.mod_eq_of_lt hlt] at this
        exact absurd (congrArg Prod.fst this) (by simp)
      · have hlt : m.cols < m.rows := Nat.lt_of_le_of_ne hge (fun h => hne h.symm)
        have hrows2 : 2 ≤ m.rows := Nat.lt_of_le_of_lt hc hlt
        have hmem : m.cols < m.buffer.length := by
          rw [hwf]
          calc m.cols = 1 * m.cols := by ring
            _ < m.rows * m.cols := mul_lt_mul_of_pos_right hrows2 hc
        have := H m.cols hmem
        rw [Nat.div_eq_of_lt hlt, Nat.mod_eq_of_lt hlt,
          Nat.div_self hc, Nat.mod_self] at this
        exact absurd (congrArg Prod.fst this) (by simp)
    · intro h i _
      rw [h]

/-- Claim C10, witness: on the non-square 2x3 integer matrix
`[[1,2,3],[4,5,6]]` the callback for flat index 3 receives the element `4`
with arguments `(3 / 2, 3 % 2)`, and the code's index pair disagrees with
the true row-major pair somewhere, as the matrix is not square. -/
theorem applyToEachIdx_args_witness :
    ((Mat.mk 2 [(1 : Int), 2, 3, 4, 5, 6]).applyToEachIdx
        (fun x _ _ => x)).buffer[3]? = some 4 ∧
      ¬ (∀ i, i < (Mat.mk 2 [(1 : Int), 2, 3, 4, 5, 6]).buffer.length →
        (i / (Mat.mk 2 [(1 : Int), 2, 3, 4, 5, 6]).rows,
          i % (Mat.mk 2 [(1 : Int), 2, 3, 4, 5, 6]).rows) =
        (i / (Mat.mk 2 [(1 : Int), 2, 3, 4, 5, 6]).cols,
          i % (Mat.mk 2 [(1 : Int), 2, 3, 4, 5, 6]).cols)) := by
  have h := applyToEachIdx_args (Mat.mk 2 [(1 : Int), 2, 3, 4, 5, 6])
    (fun x _ _ => x) rfl (by decide) (by decide)
  refine ⟨(h.1 3 (by decide)).trans (by decide), ?_⟩
  intro hall
  exact absurd (h.2.mp hall) (by decide)

/-- Claim C5: for a 2x2 symmetric matrix, `GetWilkinsonShift` returns
`M(1,1) - sign(d) * M(0,1)^2 / c` with `d = (M(0,0) - M(1,1))/2` and
`c = |d| + sqrt(d^2 + M(0,1)^2)`, for any choice of the external scalar
helpers. -/
theorem wilkinson_shift_formula [Field α] [DecidableEq α] (ops : ScalarOps α)
    (m : Mat α) (hr : m.rows = 2) (hc : m.cols = 2)
    (hsym : m.mget 0 1 = m.mget 1 0) :
    getWilkinsonShift ops m =
      some (m.mget 1 1 -
        ops.sign ((m.mget 0 0 - m.mget 1 1) / 2) * (m.mget 0 1) ^ 2 /
          (ops.abs ((m.mget 0 0 - m.mget 1 1) / 2) +
            ops.sqrt (((m.mget 0 0 - m.mget 1 1) / 2) ^ 2 + (m.mget 0 1) ^ 2))) := by
  rw [getWilkinsonShift_on_symmetric ops m hr hc hsym, wilkinsonVal]
  have hsq : ∀ x : α, x * x = x ^ 2 := fun x => (sq x).symm
  rw [hsq, hsq, mul_assoc, hsq]

/-- Claim C5, witness: on `M = [[2,1],[1,2]]` with rational helpers whose
sign convention has `sign 0 = 0`, the shift is exactly `2`. -/
theorem wilkinson_shift_formula_witness :
    ratOps.sign 0 = 0 ∧
      getWilkinsonShift ratOps (Mat.mk 2 [(2 : Rat), 1, 1, 2]) = some 2 := by
  refine ⟨by norm_num [ratOps], ?_⟩
  rw [wilkinson_shift_formula ratOps (Mat.mk 2 [(2 : Rat), 1, 1, 2])
    rfl (by decide) rfl]
  norm_num [Mat.mget, Mat.cols, ratOps]

/-- Claim C6: `GetWilkinsonShift` hits a contract failure exactly when the
input is not a 2x2 matrix with `M(0,1) == M(1,0)`; on every input meeting
that precondition every assert in the function (the three explicit ones and
the bound checks of its element accesses) passes. -/
theorem wilkinson_contract_iff [Field α] [DecidableEq α] (ops : ScalarOps α)
    (m : Mat α) :
    getWilkinsonShift ops m = none ↔
      ¬(m.rows = 2 ∧ m.cols = 2 ∧ m.mget 0 1 = m.mget 1 0) := by
  constructor
  · intro hn hpre
    rcases hpre with ⟨hr, hc, hs⟩
    rw [getWilkinsonShift_on_symmetric ops m hr hc hs] at hn
    exact Option.noConfusion hn
  · intro hnot
    by_cases hr : m.rows = 2
    · by_cases hc : m.cols = 2
      · have hs : ¬(m.mget 0 1 = m.mget 1 0) := fun h => hnot ⟨hr, hc, h⟩
        have hlen : 4 ≤ m.buffer.length := four_le_length_of_two_two m hr hc
        have e01 : m.elemChecked 0 1 = some (m.mget 0 1) :=
          elemChecked_eq_mget m 0 1 (by rw [hc]; omega)
        have e10 : m.elemChecked 1 0 = some (m.mget 1 0) :=
          elemChecked_eq_mget m 1 0 (by rw [hc]; omega)
        rw [getWilkinsonShift, if_pos hr, if_pos hc, e01, e10]
        simp only [if_neg hs]
      · rw [getWilkinsonShift, if_pos hr, if_neg hc]
    · rw [getWilkinsonShift, if_neg hr]

/-- Claim C4, helper: the source's `for` loop is the `it_cnt`-fold
iteration of the single spec-described step. -/
theorem specDecompLoop_eq_iterate [Ring α] (hqr : Mat α → Mat α × Mat α)
    (rz : Mat α → Mat α) (shiftI : Mat α) (n : Nat) (st : Mat α × Mat α) :
    specDecompLoop hqr rz shiftI n st =
      (specDecompStep hqr rz shiftI)^[n] st := by
  induction n generalizing st with
  | zero => rfl
  | succ k ih =>
    rw [Function.iterate_succ_apply]
    exact ih (specDecompStep hqr rz shiftI st)

/-- Claim C4: `GetRealSpecDecomposition` is exactly the `it_cnt`-fold
iteration (no convergence test, no early exit) of the step that factors
`D - shift*I` through Householder QR into `(Q, R)`, replaces `D` by
`R*Q + shift*I`, multiplies the accumulator on the right by `Q` and rounds
near-zero entries of `D`; the final `{D, transform}` pair is returned. -/
theorem getRealSpecDecomposition_runs_iterations [Ring α]
    (hqr : Mat α → Mat α × Mat α) (rz : Mat α → Mat α) (m : Mat α)
    (shift : α) (it_cnt : Nat) :
    getRealSpecDecomposition hqr rz m shift it_cnt =
      SpectralPair.mk
        (((specDecompStep hqr rz (Mat.identity m.rows shift))^[it_cnt]
          (m, Mat.identity m.rows 1)).1)
        (((specDecompStep hqr rz (Mat.identity m.rows shift))^[it_cnt]
          (m, Mat.identity m.rows 1)).2) := by
  rw [getRealSpecDecomposition]
  rw [specDecompLoop_eq_iterate]

/-- Claim C3, amended: in each sweep step `i`, when column `i+1` exists the
pair is `f = S(0,0)^2 - shift`, `s = S(0,1)*S(0,0)` for `i = 0` and
`f = S(i-1,i)`, `s = S(i-1,i+1)` for `i > 0`, a right (column) rotation
with `(f, s)` is applied to `S` while a left (row) rotation with `(f, s)`
is applied to `VT`; when row `i+1` exists (in the updated `S`), a right
rotation with the current `(S(i,i), S(i+1,i))` is applied to `U` while the
left rotation with that pair is applied to `S`. -/
theorem sweepIter_rotations [Ring α]
    (gl gr : Mat α → Nat → Nat → α → α → Mat α) (shift : α) (i : Nat)
    (U S VT : Mat α) :
    sweepIter gl gr shift (U, S, VT) i =
      (let f := if 0 < i then S.mget (i - 1) i
        else S.mget 0 0 * S.mget 0 0 - shift
       let s := if 0 < i then S.mget (i - 1) (i + 1)
        else S.mget 0 1 * S.mget 0 0
       let S1 := if i + 1 < S.cols then gr S i (i + 1) f s else S
       let VT1 := if i + 1 < S.cols then gl VT i (i + 1) f s else VT
       let U2 := if i + 1 < S1.rows then
         gr U i (i + 1) (S1.mget i i) (S1.mget (i + 1) i) else U
       let S2 := if i + 1 < S1.rows then
         gl S1 i (i + 1) (S1.mget i i) (S1.mget (i + 1) i) else S1
       (U2, S2, VT1)) := by
  simp only [sweepIter]
  by_cases h1 : i + 1 < S.cols <;>
    simp only [h1, ite_true, ite_false] <;> split_ifs <;> rfl

/-- Claim C3, counterexample: at a concrete sweep step (with the modelled
Givens collaborators over the integers), the resulting `VT` is not the
right rotation of `VT` by the derived `(f, s)` pair, and the resulting `U`
is not the left rotation of `U` by the current `(S(i,i), S(i+1,i))` pair —
the code rotates `VT` from the left and `U` from the right. -/
theorem sweepIter_sides_counterexample :
    ((sweepIter (givensLeftRot derivRaw) (givensRightRot derivRaw) 0
        (Mat.identity 2 (1 : Int), Mat.mk 2 [1, 1, 0, 1], Mat.identity 2 1) 0).2.2 ≠
      givensRightRot derivRaw (Mat.identity 2 (1 : Int)) 0 1
        ((Mat.mk 2 [(1 : Int), 1, 0, 1]).mget 0 0 *
          (Mat.mk 2 [(1 : Int), 1, 0, 1]).mget 0 0 - 0)
        ((Mat.mk 2 [(1 : Int), 1, 0, 1]).mget 0 1 *
          (Mat.mk 2 [(1 : Int), 1, 0, 1]).mget 0 0)) ∧
    ((sweepIter (givensLeftRot derivRaw) (givensRightRot derivRaw) 0
        (Mat.identity 2 (1 : Int), Mat.mk 2 [1, 1, 0, 1], Mat.identity 2 1) 0).1 ≠
      givensLeftRot derivRaw (Mat.identity 2 (1 : Int)) 0 1
        ((givensRightRot derivRaw (Mat.mk 2 [(1 : Int), 1, 0, 1]) 0 1
            ((Mat.mk 2 [(1 : Int), 1, 0, 1]).mget 0 0 *
              (Mat.mk 2 [(1 : Int), 1, 0, 1]).mget 0 0 - 0)
            ((Mat.mk 2 [(1 : Int), 1, 0, 1]).mget 0 1 *
              (Mat.mk 2 [(1 : Int), 1, 0, 1]).mget 0 0)).mget 0 0)
        ((givensRightRot derivRaw (Mat.mk 2 [(1 : Int), 1, 0, 1]) 0 1
            ((Mat.mk 2 [(1 : Int), 1, 0, 1]).mget 0 0 *
              (Mat.mk 2 [(1 : Int), 1, 0, 1]).mget 0 0 - 0)
            ((Mat.mk 2 [(1 : Int), 1, 0, 1]).mget 0 1 *
              (Mat.mk 2 [(1 : Int), 1, 0, 1]).mget 0 0)).mget 1 0)) := by
  decide

-- ## The in-place transpose: correctness of the cycle relocation

theorem listSwap_length (l : List α) (a b : Nat) :
    (listSwap l a b).length = l.length := by
  unfold listSwap
  cases h1 : l[a]? with
  | none => rfl
  | some x =>
    cases h2 : l[b]? with
    | none => rfl
    | some y => simp [List.length_set]

theorem listSwap_getElem? (l : List α) (a b : Nat) (ha : a < l.length)
    (hb : b < l.length) :
    (listSwap l a b)[b]? = l[a]? ∧
      (a ≠ b → (listSwap l a b)[a]? = l[b]?) ∧
      (∀ n, n ≠ a → n ≠ b → (listSwap l a b)[n]? = l[n]?) := by
  have hae : l[a]? = some l[a] := List.getElem?_eq_getElem ha
  have hbe : l[b]? = some l[b] := List.getElem?_eq_getElem hb
  unfold listSwap
  rw [hae, hbe]
  refine ⟨?_, ?_, ?_⟩
  · rw [List.getElem?_set]
    simp [List.length_set, hb, hae]
  · intro hab
    rw [List.getElem?_set_ne (fun h => hab h.symm), List.getElem?_set]
    simp [ha, hbe]
  · intro n hna hnb
    rw [List.getElem?_set_ne (fun h => hnb h.symm),
      List.getElem?_set_ne (fun h => hna h.symm)]

theorem coprime_R_of_last (R C last : Nat) (h : last + 1 = R * C) :
    Nat.gcd R last = 1 := by
  have h1 : Nat.gcd R last ∣ R := Nat.gcd_dvd_left R last
  have h2 : Nat.gcd R last ∣ last := Nat.gcd_dvd_right R last
  have h3 : Nat.gcd R last ∣ last + 1 := by
    rw [h]
    exact Dvd.dvd.mul_right h1 C
  have h4 : Nat.gcd R last ∣ 1 := by
    have h5 := Nat.dvd_sub' h3 h2
    simpa using h5
  exact Nat.dvd_one.mp h4

theorem tStep_pos_le (R C last : Nat) (h : last + 1 = R * C) (hlast : 0 < last)
    (j : Nat) (hj0 : 0 < j) (hjl : j ≤ last) :
    0 < tStep R last j ∧ tStep R last j ≤ last := by
  unfold tStep
  by_cases hje : j = last
  · rw [if_pos hje]
    exact ⟨hlast, Nat.le_refl last⟩
  · rw [if_neg hje]
    have hjlt : j < last := Nat.lt_of_le_of_ne hjl hje
    refine ⟨?_, Nat.le_of_lt (Nat.mod_lt _ hlast)⟩
    rcases Nat.eq_zero_or_pos ((R * j) % last) with h0 | hp
    · exfalso
      have hdvd : last ∣ R * j := Nat.dvd_of_mod_eq_zero h0
      have hco : Nat.Coprime last R := by
        unfold Nat.Coprime
        rw [Nat.gcd_comm]
        exact coprime_R_of_last R C last h
      have hdj : last ∣ j := hco.dvd_of_dvd_mul_left hdvd
      have hlj := Nat.le_of_dvd hj0 hdj
      omega
    · exact hp

theorem tStep_lt_of_lt (R C last : Nat) (h : last + 1 = R * C) (hlast : 0 < last)
    (j : Nat) (hjl : j < last) : tStep R last j < last := by
  rw [tStep, if_neg (Nat.ne_of_lt hjl)]
  exact Nat.mod_lt _ hlast

theorem tStep_inj (R C last : Nat) (h : last + 1 = R * C) (hlast : 0 < last)
    (j₁ j₂ : Nat) (h₁ : j₁ ≤ last) (h₂ : j₂ ≤ last)
    (he : tStep R last j₁ = tStep R last j₂) : j₁ = j₂ := by
  unfold tStep at he
  by_cases e₁ : j₁ = last <;> by_cases e₂ : j₂ = last
  · rw [e₁, e₂]
  · rw [if_pos e₁, if_neg e₂] at he
    exact absurd he.symm (Nat.ne_of_lt (Nat.mod_lt _ hlast))
  · rw [if_neg e₁, if_pos e₂] at he
    exact absurd he (Nat.ne_of_lt (Nat.mod_lt _ hlast))
  · rw [if_neg e₁, if_neg e₂] at he
    have hco : Nat.gcd last R = 1 := by
      rw [Nat.gcd_comm]
      exact coprime_R_of_last R C last h
    have hmod : j₁ % last = j₂ % last :=
      Nat.ModEq.cancel_left_of_coprime hco he
    rw [Nat.mod_eq_of_lt (Nat.lt_of_le_of_ne h₁ e₁),
      Nat.mod_eq_of_lt (Nat.lt_of_le_of_ne h₂ e₂)] at hmod
    exact hmod

theorem tStep_iterate_mem (R C last : Nat) (h : last + 1 = R * C)
    (hlast : 0 < last) (i : Nat) (hi0 : 0 < i) (hil : i ≤ last) :
    ∀ t, 0 < (tStep R last)^[t] i ∧ (tStep R last)^[t] i ≤ last := by
  intro t
  induction t with
  | zero => exact ⟨hi0, hil⟩
  | succ s ih =>
    rw [Function.iterate_succ_apply']
    exact tStep_pos_le R C last h hlast _ ih.1 ih.2

theorem tStep_iterate_cancel (R C last : Nat) (h : last + 1 = R * C)
    (hlast : 0 < last) (a b : Nat) (ha0 : 0 < a) (hal : a ≤ last)
    (hb0 : 0 < b) (hbl : b ≤ last) :
    ∀ t, (tStep R last)^[t] a = (tStep R last)^[t] b → a = b := by
  intro t
  induction t with
  | zero => exact fun e => e
  | succ s ih =>
    intro e
    rw [Function.iterate_succ_apply', Function.iterate_succ_apply'] at e
    have ma := tStep_iterate_mem R C last h hlast a ha0 hal s
    have mb := tStep_iterate_mem R C last h hlast b hb0 hbl s
    exact ih (tStep_inj R C last h hlast _ _ ma.2 mb.2 e)

theorem tStep_exists_return (R C last : Nat) (h : last + 1 = R * C)
    (hlast : 0 < last) (i : Nat) (hi0 : 0 < i) (hil : i ≤ last) :
    ∃ k, 0 < k ∧ (tStep R last)^[k] i = i := by
  by_cases hie : i = last
  · refine ⟨1, Nat.one_pos, ?_⟩
    rw [Function.iterate_one, hie, tStep, if_pos rfl]
  · have hilt : i < last := Nat.lt_of_le_of_ne hil hie
    have hmemlt : ∀ t, 0 < (tStep R last)^[t] i ∧ (tStep R last)^[t] i < last := by
      intro t
      induction t with
      | zero => exact ⟨hi0, hilt⟩
      | succ s ih =>
        rw [Function.iterate_succ_apply']
        exact ⟨(tStep_pos_le R C last h hlast _ ih.1 (Nat.le_of_lt ih.2)).1,
          tStep_lt_of_lt R C last h hlast _ ih.2⟩
    have hmap : ∀ t ∈ Finset.range (last + 1),
        (tStep R last)^[t] i ∈ Finset.Ioo 0 last := by
      intro t _
      exact Finset.mem_Ioo.mpr ⟨(hmemlt t).1, (hmemlt t).2⟩
    have hcard : (Finset.Ioo 0 last).card < (Finset.range (last + 1)).card := by
      rw [Nat.card_Ioo, Finset.card_range]
      omega
    rcases Finset.exists_ne_map_eq_of_card_lt_of_maps_to hcard hmap with
      ⟨x, _, y, _, hxy, hexy⟩
    have key : ∀ u v : Nat, u < v → (tStep R last)^[u] i = (tStep R last)^[v] i →
        ∃ k, 0 < k ∧ (tStep R last)^[k] i = i := by
      intro u v huv he
      refine ⟨v - u, by omega, ?_⟩
      have hcomp : (tStep R last)^[u] ((tStep R last)^[v - u] i) =
          (tStep R last)^[u] i := by
        rw [← Function.iterate_add_apply, show u + (v - u) = v by omega]
        exact he.symm
      have hm := tStep_iterate_mem R C last h hlast i hi0 hil (v - u)
      exact tStep_iterate_cancel R C last h hlast _ _ hm.1 hm.2 hi0 hil u hcomp
    rcases Nat.lt_or_ge x y with hlt | hge
    · exact key x y hlt hexy
    · exact key y x (by omega) hexy.symm

theorem tStep_inverse (R C last : Nat) (h : last + 1 = R * C) (hlast : 0 < last)
    (n : Nat) (hn0 : 0 < n) (hnl : n ≤ last) :
    tStep C last (tStep R last n) = n := by
  by_cases hne : n = last
  · rw [hne]
    rw [show tStep R last last = last from by rw [tStep, if_pos rfl]]
    rw [tStep, if_pos rfl]
  · have hlt : n < last := Nat.lt_of_le_of_ne hnl hne
    rw [show tStep R last n = R * n % last from by rw [tStep, if_neg hne]]
    rw [tStep, if_neg (Nat.ne_of_lt (Nat.mod_lt _ hlast))]
    calc (C * (R * n % last)) % last
        = (C % last * (R * n % last % last)) % last := Nat.mul_mod _ _ _
      _ = (C % last * (R * n % last)) % last := by
          rw [Nat.mod_mod_of_dvd _ (dvd_refl last)]
      _ = (C * (R * n)) % last := (Nat.mul_mod _ _ _).symm
      _ = ((last + 1) * n) % last := by
          rw [← Nat.mul_assoc, Nat.mul_comm C R, ← h]
      _ = (n + last * n) % last := by ring_nf
      _ = n % last := Nat.add_mul_mod_self_left n last n
      _ = n := Nat.mod_eq_of_lt hlt

/-- Running the `do ... while` cycle loop from any point `t` of the cycle of
`i` (first return time `k`) relocates every orbit cell one hop forward,
marks the orbit visited, and leaves everything else untouched, relative to
the state `(b₀, v₀)` the cycle was entered with. -/
theorem transCycle_run (R last i k : Nat) (b₀ : List α) (v₀ : List Bool)
    (hk : 0 < k) (hret : (tStep R last)^[k] i = i)
    (hdist : ∀ s t, s < t → t < k →
      (tStep R last)^[s] i ≠ (tStep R last)^[t] i)
    (hob : ∀ t, (tStep R last)^[t] i < b₀.length)
    (hov : ∀ t, (tStep R last)^[t] i < v₀.length) :
    ∀ fuel t b v, t < k → k - t ≤ fuel →
      b.length = b₀.length → v.length = v₀.length →
      (∀ s, 1 ≤ s → s ≤ t →
        b[(tStep R last)^[s] i]? = b₀[(tStep R last)^[s - 1] i]?) →
      b[i]? = b₀[(tStep R last)^[t] i]? →
      (∀ n, (∀ s, s ≤ t → (tStep R last)^[s] i ≠ n) → b[n]? = b₀[n]?) →
      (∀ n, (∃ s, 1 ≤ s ∧ s ≤ t ∧ (tStep R last)^[s] i = n) →
        v[n]? = some true) →
      (∀ n, (¬ ∃ s, 1 ≤ s ∧ s ≤ t ∧ (tStep R last)^[s] i = n) →
        v[n]? = v₀[n]?) →
      ((transCycle R last i fuel ((tStep R last)^[t] i) (b, v)).1.length =
          b₀.length ∧
        (transCycle R last i fuel ((tStep R last)^[t] i) (b, v)).2.length =
          v₀.length ∧
        (∀ s, 1 ≤ s → s ≤ k →
          (transCycle R last i fuel ((tStep R last)^[t] i)
              (b, v)).1[(tStep R last)^[s] i]? =
            b₀[(tStep R last)^[s - 1] i]?) ∧
        (∀ n, (∀ s, s ≤ k → (tStep R last)^[s] i ≠ n) →
          (transCycle R last i fuel ((tStep R last)^[t] i) (b, v)).1[n]? =
            b₀[n]?) ∧
        (∀ n, (∃ s, 1 ≤ s ∧ s ≤ k ∧ (tStep R last)^[s] i = n) →
          (transCycle R last i fuel ((tStep R last)^[t] i) (b, v)).2[n]? =
            some true) ∧
        (∀ n, (¬ ∃ s, 1 ≤ s ∧ s ≤ k ∧ (tStep R last)^[s] i = n) →
          (transCycle R last i fuel ((tStep R last)^[t] i) (b, v)).2[n]? =
            v₀[n]?)) := by
  intro fuel
  induction fuel with
  | zero =>
    intro t b v ht hfuel
    exact absurd hfuel (by omega)
  | succ f ih =>
    intro t b v ht hfuel hlb hlv I1 I2 I3 I4 I5
    have hstep : tStep R last ((tStep R last)^[t] i) = (tStep R last)^[t + 1] i :=
      (Function.iterate_succ_apply' (tStep R last) t i).symm
    have hi0 : (tStep R last)^[0] i = i := Function.iterate_zero_apply _ i
    have hib : i < b.length := by
      rw [hlb]
      have hb0 := hob 0
      rw [hi0] at hb0
      exact hb0
    have hiv : i < v.length := by
      rw [hlv]
      have hv0 := hov 0
      rw [hi0] at hv0
      exact hv0
    have hunfold : transCycle R last i (f + 1) ((tStep R last)^[t] i) (b, v) =
        if tStep R last ((tStep R last)^[t] i) = i then
          (listSwap b (tStep R last ((tStep R last)^[t] i)) i,
            v.set (tStep R last ((tStep R last)^[t] i)) true)
        else
          transCycle R last i f (tStep R last ((tStep R last)^[t] i))
            (listSwap b (tStep R last ((tStep R last)^[t] i)) i,
              v.set (tStep R last ((tStep R last)^[t] i)) true) := rfl
    by_cases hcase : t + 1 = k
    · have hj' : tStep R last ((tStep R last)^[t] i) = i := by
        rw [hstep, hcase, hret]
      rw [hunfold, hj', if_pos rfl]
      have sw := listSwap_getElem? b i i hib hib
      refine ⟨by rw [listSwap_length, hlb], by rw [List.length_set, hlv],
        ?_, ?_, ?_, ?_⟩
      · intro s hs1 hsk
        by_cases hsk' : s = k
        · rw [hsk', hret, show k - 1 = t from by omega, sw.1]
          exact I2
        · have hsk2 : s < k := Nat.lt_of_le_of_ne hsk hsk'
          have hne : (tStep R last)^[s] i ≠ i := fun he =>
            hdist 0 s (by omega) hsk2 (hi0.trans he.symm)
          rw [sw.2.2 _ hne hne]
          exact I1 s hs1 (by omega)
      · intro n hn
        have hni : n ≠ i := by
          have h0 := hn 0 (Nat.zero_le k)
          rw [hi0] at h0
          exact fun he => h0 he.symm
        rw [sw.2.2 n (fun he => hni he) (fun he => hni he)]
        exact I3 n (fun s hs => hn s (by omega))
      · intro n hex
        rcases hex with ⟨s, hs1, hsk, hesn⟩
        by_cases hni : n = i
        · rw [hni, List.getElem?_set, if_pos rfl, if_pos hiv]
        · rw [List.getElem?_set_ne (fun hh => hni hh.symm)]
          have hsnek : s ≠ k := by
            intro hhh
            rw [hhh, hret] at hesn
            exact hni hesn.symm
          exact I4 n ⟨s, hs1, by omega, hesn⟩
      · intro n hnex
        have hni : n ≠ i := by
          intro he
          exact hnex ⟨k, by omega, Nat.le_refl k, by rw [hret, he]⟩
        rw [List.getElem?_set_ne (fun hh => hni hh.symm)]
        refine I5 n ?_
        intro hcon
        rcases hcon with ⟨s, hs1, hst, he⟩
        exact hnex ⟨s, hs1, by omega, he⟩
    · have htk : t + 1 < k := by omega
      have hne' : tStep R last ((tStep R last)^[t] i) ≠ i := by
        rw [hstep]
        exact fun he => hdist 0 (t + 1) (by omega) htk (hi0.trans he.symm)
      rw [hunfold, if_neg hne', hstep]
      have hab : (tStep R last)^[t + 1] i < b.length := by
        rw [hlb]
        exact hob (t + 1)
      have hav : (tStep R last)^[t + 1] i < v.length := by
        rw [hlv]
        exact hov (t + 1)
      have hne'' : (tStep R last)^[t + 1] i ≠ i := fun he =>
        hdist 0 (t + 1) (by omega) htk (hi0.trans he.symm)
      have sw := listSwap_getElem? b ((tStep R last)^[t + 1] i) i hab hib
      refine ih (t + 1) (listSwap b ((tStep R last)^[t + 1] i) i)
        (v.set ((tStep R last)^[t + 1] i) true) htk (by omega)
        (by rw [listSwap_length, hlb]) (by rw [List.length_set, hlv])
        ?_ ?_ ?_ ?_ ?_
      · intro s hs1 hst1
        by_cases hseq : s = t + 1
        · rw [hseq, sw.2.1 hne'', show t + 1 - 1 = t from by omega]
          exact I2
        · have hst : s ≤ t := by omega
          have hna : (tStep R last)^[s] i ≠ (tStep R last)^[t + 1] i :=
            hdist s (t + 1) (by omega) htk
          have hnei : (tStep R last)^[s] i ≠ i := fun he =>
            hdist 0 s (by omega) (by omega) (hi0.trans he.symm)
          rw [sw.2.2 _ hna hnei]
          exact I1 s hs1 hst
      · rw [sw.1]
        refine I3 ((tStep R last)^[t + 1] i) ?_
        intro s hs
        exact hdist s (t + 1) (by omega) htk
      · intro n hn
        have hna : n ≠ (tStep R last)^[t + 1] i := fun he =>
          (hn (t + 1) (Nat.le_refl _)) he.symm
        have hni : n ≠ i := by
          have h0 := hn 0 (Nat.zero_le _)
          rw [hi0] at h0
          exact fun he => h0 he.symm
        rw [sw.2.2 n hna (fun he => hni he)]
        exact I3 n (fun s hs => hn s (by omega))
      · intro n hex
        rcases hex with ⟨s, hs1, hst1, hesn⟩
        by_cases hna : n = (tStep R last)^[t + 1] i
        · rw [hna, List.getElem?_set, if_pos rfl, if_pos hav]
        · rw [List.getElem?_set_ne (fun hh => hna hh.symm)]
          have hsne : s ≠ t + 1 := by
            intro hhh
            rw [hhh] at hesn
            exact hna hesn.symm
          exact I4 n ⟨s, hs1, by omega, hesn⟩
      · intro n hnex
        have hna : n ≠ (tStep R last)^[t + 1] i := by
          intro he
          exact hnex ⟨t + 1, by omega, Nat.le_refl _, he.symm⟩
        rw [List.getElem?_set_ne (fun hh => hna hh.symm)]
        refine I5 n ?_
        intro hcon
        rcases hcon with ⟨s, hs1, hst, he⟩
        exact hnex ⟨s, hs1, by omega, he⟩

/-- Folding the outer loop body of `Transpose` over any list of indices
inside `[1, last]` extends the set `P` of relocated cycles by the cycles of
the processed indices, preserving the outer invariant. -/
theorem transFold_run (R C last N : Nat) (h : last + 1 = R * C)
    (hlast : 0 < last) (b₀ : List α) (hbN : b₀.length = N) (hlastN : last < N) :
    ∀ (l : List Nat), (∀ x ∈ l, 0 < x ∧ x ≤ last) →
      ∀ st P, TransOuterInv R last b₀ N P st →
        ∃ P', TransOuterInv R last b₀ N P'
            (l.foldl (transBody R last (N + 1)) st) ∧
          (∀ x, P x → P' x) ∧ (∀ x ∈ l, P' x) := by
  intro l
  induction l with
  | nil =>
    intro _ st P hinv
    exact ⟨P, hinv, fun _ hx => hx, fun x hx => absurd hx (List.not_mem_nil x)⟩
  | cons i l ihl =>
    intro hmem st P hinv
    obtain ⟨hrange, hfwd, hbwd, hvisT, hvisF, hbufP, hbufN, hlb, hlv⟩ := hinv
    have hi := hmem i (List.mem_cons_self i l)
    rw [List.foldl_cons]
    by_cases hPi : P i
    · have hvis : st.2.getD i false = true := by
        rw [List.getD_eq_getElem?_getD, hvisT i hPi]
        rfl
      have hbody : transBody R last (N + 1) st i = st := by
        rw [transBody, hvis]
        rfl
      rw [hbody]
      refine ihl (fun x hx => hmem x (List.mem_cons_of_mem i hx)) st P
        ⟨hrange, hfwd, hbwd, hvisT, hvisF, hbufP, hbufN, hlb, hlv⟩ |>.imp ?_
      intro P' hP'
      exact ⟨hP'.1, hP'.2.1, fun x hx => by
        rcases List.mem_cons.mp hx with he | hl
        · rw [he]; exact hP'.2.1 i hPi
        · exact hP'.2.2 x hl⟩
    · have hvis : st.2.getD i false = false := by
        rw [List.getD_eq_getElem?_getD, hvisF i hPi, List.getElem?_replicate,
          if_pos (show i < N from by omega)]
        rfl
      have hbody : transBody R last (N + 1) st i =
          transCycle R last i (N + 1) i st := by
        rw [transBody, hvis]
        rfl
      rw [hbody]
      have hi0 : (tStep R last)^[0] i = i := Function.iterate_zero_apply _ i
      have hex := tStep_exists_return R C last h hlast i hi.1 hi.2
      have hkspec := Nat.find_spec hex
      have hmemK := tStep_iterate_mem R C last h hlast i hi.1 hi.2
      have hminne : ∀ t, 0 < t → t < Nat.find hex →
          (tStep R last)^[t] i ≠ i := by
        intro t ht0 htK he
        exact Nat.find_min hex htK ⟨ht0, he⟩
      have hdist : ∀ s t, s < t → t < Nat.find hex →
          (tStep R last)^[s] i ≠ (tStep R last)^[t] i := by
        intro s t hst htK he
        have h2 : (tStep R last)^[s] ((tStep R last)^[t - s] i) =
            (tStep R last)^[s] i := by
          rw [← Function.iterate_add_apply, show s + (t - s) = t from by omega]
          exact he.symm
        have hm := hmemK (t - s)
        have h3 : (tStep R last)^[t - s] i = i :=
          tStep_iterate_cancel R C last h hlast _ _ hm.1 hm.2 hi.1 hi.2 s h2
        exact hminne (t - s) (by omega) (by omega) h3
      have hKle : Nat.find hex ≤ last := by
        have hmap : ∀ s ∈ Finset.range (Nat.find hex),
            (tStep R last)^[s] i ∈ Finset.Icc 1 last := by
          intro s _
          exact Finset.mem_Icc.mpr ⟨(hmemK s).1, (hmemK s).2⟩
        have hinj : Set.InjOn (fun s => (tStep R last)^[s] i)
            (Finset.range (Nat.find hex)) := by
          intro x hx y hy he
          have hx' : x < Nat.find hex := by simpa using hx
          have hy' : y < Nat.find hex := by simpa using hy
          rcases Nat.lt_trichotomy x y with hlt | heq | hgt
          · exact absurd he (hdist x y hlt hy')
          · exact heq
          · exact absurd he.symm (hdist y x hgt hx')
        have := Finset.card_le_card_of_injOn _ hmap hinj
        rw [Finset.card_range, Nat.card_Icc] at this
        omega
      have hPco : ∀ s, ¬ P ((tStep R last)^[s] i) := by
        intro s
        induction s with
        | zero => rw [hi0]; exact hPi
        | succ u ihu =>
          intro hPn
          rcases hbwd _ hPn with ⟨p, hp, hpe⟩
          rw [Function.iterate_succ_apply'] at hpe
          have hpl := (hrange p hp).2
          have hul := (hmemK u).2
          have hpu := tStep_inj R C last h hlast p _ hpl hul hpe
          rw [hpu] at hp
          exact ihu hp
      have hob : ∀ t, (tStep R last)^[t] i < st.1.length := by
        intro t
        have := (hmemK t).2
        omega
      have hov : ∀ t, (tStep R last)^[t] i < st.2.length := by
        intro t
        have := (hmemK t).2
        omega
      have RES := transCycle_run R last i (Nat.find hex) st.1 st.2
        hkspec.1 hkspec.2 hdist hob hov (N + 1) 0 st.1 st.2
        hkspec.1 (by omega) rfl rfl
        (fun s hs1 hs0 => absurd (Nat.le_trans hs1 hs0) (by omega))
        (by rw [hi0]) (fun n _ => rfl)
        (fun n hex' => absurd hex' (by rintro ⟨s, hs1, hs0, _⟩; omega))
        (fun n _ => rfl)
      rw [hi0] at RES
      have horb : ∀ n, (∃ s, s < Nat.find hex ∧ (tStep R last)^[s] i = n) ↔
          (∃ s, 1 ≤ s ∧ s ≤ Nat.find hex ∧ (tStep R last)^[s] i = n) := by
        intro n
        constructor
        · rintro ⟨s, hsK, he⟩
          by_cases hs0 : s = 0
          · refine ⟨Nat.find hex, hkspec.1, Nat.le_refl _, ?_⟩
            rw [hkspec.2, ← hi0, ← hs0]
            exact he
          · exact ⟨s, by omega, by omega, he⟩
        · rintro ⟨s, hs1, hsK, he⟩
          by_cases hsk : s = Nat.find hex
          · refine ⟨0, hkspec.1, ?_⟩
            rw [hi0, ← hkspec.2, ← hsk]
            exact he
          · exact ⟨s, by omega, he⟩
      obtain ⟨RL1, RL2, RF1, RF2, RF3, RF4⟩ := RES
      have hnotorb : ∀ n, P n →
          ¬ ∃ s, 1 ≤ s ∧ s ≤ Nat.find hex ∧ (tStep R last)^[s] i = n := by
        intro n hPn hcon
        rcases (horb n).mpr hcon with ⟨s, _, he⟩
        rw [← he] at hPn
        exact hPco s hPn
      have hallorb : ∀ s n, s ≤ Nat.find hex → (tStep R last)^[s] i = n →
          ∃ u, u < Nat.find hex ∧ (tStep R last)^[u] i = n := by
        intro s n hsK he
        by_cases hsk : s = Nat.find hex
        · refine ⟨0, hkspec.1, ?_⟩
          rw [hi0, ← hkspec.2, ← hsk]
          exact he
        · exact ⟨s, by omega, he⟩
      refine (ihl (fun x hx => hmem x (List.mem_cons_of_mem i hx))
        (transCycle R last i (N + 1) i st)
        (fun n => P n ∨ ∃ s, s < Nat.find hex ∧ (tStep R last)^[s] i = n)
        ⟨?_, ?_, ?_, ?_, ?_, ?_, ?_, ?_, ?_⟩).imp ?_
      · intro n hn
        rcases hn with hP | ⟨s, _, he⟩
        · exact hrange n hP
        · rw [← he]
          exact ⟨(hmemK s).1, (hmemK s).2⟩
      · intro n hn
        rcases hn with hP | ⟨s, hsK, he⟩
        · exact Or.inl (hfwd n hP)
        · right
          by_cases hsk : s + 1 = Nat.find hex
          · refine ⟨0, hkspec.1, ?_⟩
            calc (tStep R last)^[0] i = i := hi0
              _ = (tStep R last)^[Nat.find hex] i := hkspec.2.symm
              _ = (tStep R last)^[s + 1] i := by rw [hsk]
              _ = tStep R last n := by rw [Function.iterate_succ_apply', he]
          · refine ⟨s + 1, by omega, ?_⟩
            rw [Function.iterate_succ_apply', he]
      · intro n hn
        rcases hn with hP | ⟨s, hsK, he⟩
        · rcases hbwd n hP with ⟨p, hp, hpe⟩
          exact ⟨p, Or.inl hp, hpe⟩
        · by_cases hs0 : s = 0
          · refine ⟨(tStep R last)^[Nat.find hex - 1] i,
              Or.inr ⟨Nat.find hex - 1, by omega, rfl⟩, ?_⟩
            rw [hs0, hi0] at he
            calc tStep R last ((tStep R last)^[Nat.find hex - 1] i)
                = (tStep R last)^[Nat.find hex - 1 + 1] i :=
                  (Function.iterate_succ_apply' _ _ _).symm
              _ = (tStep R last)^[Nat.find hex] i := by
                  rw [show Nat.find hex - 1 + 1 = Nat.find hex from by omega]
              _ = i := hkspec.2
              _ = n := he
          · refine ⟨(tStep R last)^[s - 1] i,
              Or.inr ⟨s - 1, by omega, rfl⟩, ?_⟩
            calc tStep R last ((tStep R last)^[s - 1] i)
                = (tStep R last)^[s - 1 + 1] i :=
                  (Function.iterate_succ_apply' _ _ _).symm
              _ = (tStep R last)^[s] i := by
                  rw [show s - 1 + 1 = s from by omega]
              _ = n := he
      · intro n hn
        rcases hn with hP | horbn
        · rw [RF4 n (hnotorb n hP)]
          exact hvisT n hP
        · exact RF3 n ((horb n).mp horbn)
      · intro n hn
        have hn1 : ¬ P n := fun hp => hn (Or.inl hp)
        have hn2 : ¬ ∃ s, s < Nat.find hex ∧ (tStep R last)^[s] i = n :=
          fun hc => hn (Or.inr hc)
        rw [RF4 n (fun hcon => hn2 ((horb n).mpr hcon))]
        exact hvisF n hn1
      · intro n hn
        rcases hn with hP | ⟨s, hsK, he⟩
        · have hfP := hfwd n hP
          rw [RF2 (tStep R last n) (fun s hsK he => by
            rcases hallorb s (tStep R last n) hsK he with ⟨u, _, hu⟩
            rw [← hu] at hfP
            exact hPco u hfP)]
          exact hbufP n hP
        · have hsucc : tStep R last n = (tStep R last)^[s + 1] i := by
            rw [Function.iterate_succ_apply', he]
          have hres := RF1 (s + 1) (by omega) (by omega)
          rw [show s + 1 - 1 = s from rfl] at hres
          rw [hsucc, hres]
          exact (hbufN _ (hPco s)).trans (congrArg (fun x => b₀[x]?) he)
      · intro n hn
        have hn1 : ¬ P n := fun hp => hn (Or.inl hp)
        have hn2 : ¬ ∃ s, s < Nat.find hex ∧ (tStep R last)^[s] i = n :=
          fun hc => hn (Or.inr hc)
        rw [RF2 n (fun s hsK he => by
          rcases hallorb s n hsK he with ⟨u, huK, hu⟩
          exact hn2 ⟨u, huK, hu⟩)]
        exact hbufN n hn1
      · rw [RL1]
        exact hlb
      · rw [RL2]
        exact hlv
      · intro P' hP'
        refine ⟨hP'.1, fun x hx => hP'.2.1 x (Or.inl hx), ?_⟩
        intro x hx
        rcases List.mem_cons.mp hx with hxe | hxl
        · rw [hxe]
          exact hP'.2.1 i (Or.inr ⟨0, hkspec.1, hi0⟩)
        · exact hP'.2.2 x hxl

/-- The net effect of `Transpose`: the row count becomes the old column
count, the buffer keeps its length, the element at flat index `n` in
`[1, last]` moves to `tStep rows last n`, and flat index `0` (as well as
every index past `last`) is untouched. -/
theorem transpose_master (m : Mat α) (hdvd : m.rows ∣ m.buffer.length) :
    (m.transpose).rows = m.cols ∧
      (m.transpose).buffer.length = m.buffer.length ∧
      (∀ n, 0 < n → n ≤ m.buffer.length - 1 →
        (m.transpose).buffer[tStep m.rows (m.buffer.length - 1) n]? =
          m.buffer[n]?) ∧
      (∀ n, n = 0 ∨ m.buffer.length - 1 < n →
        (m.transpose).buffer[n]? = m.buffer[n]?) := by
  by_cases hN : m.buffer.length ≤ 1
  · have hempty : List.range' 1 (m.buffer.length - 1) = [] := by
      rw [show m.buffer.length - 1 = 0 from by omega]
      rfl
    have hbuf : (m.transpose).buffer = m.buffer := by
      show ((List.range' 1 (m.buffer.length - 1)).foldl
        (transBody m.rows (m.buffer.length - 1) (m.buffer.length + 1))
        (m.buffer, List.replicate m.buffer.length false)).1 = m.buffer
      rw [hempty]
      rfl
    refine ⟨rfl, by rw [hbuf], ?_, ?_⟩
    · intro n hn0 hnl
      exact absurd hnl (by omega)
    · intro n _
      rw [hbuf]
  · have hrpos : 0 < m.rows := by
      rcases Nat.eq_zero_or_pos m.rows with h0 | hp
      · exfalso
        rw [h0] at hdvd
        have := Nat.eq_zero_of_zero_dvd hdvd
        omega
      · exact hp
    have hcols : m.cols = m.buffer.length / m.rows := by
      rw [Mat.cols, if_neg (by omega)]
    have hmul : m.rows * m.cols = m.buffer.length := by
      rw [hcols]
      exact Nat.mul_div_cancel' hdvd
    have hlasteq : (m.buffer.length - 1) + 1 = m.rows * m.cols := by omega
    have hlast : 0 < m.buffer.length - 1 := by omega
    have hinv0 : TransOuterInv m.rows (m.buffer.length - 1) m.buffer
        m.buffer.length (fun _ => False)
        (m.buffer, List.replicate m.buffer.length false) := by
      refine ⟨fun n hn => hn.elim, fun n hn => hn.elim, fun n hn => hn.elim,
        fun n hn => hn.elim, fun n _ => rfl, fun n hn => hn.elim,
        fun n _ => rfl, rfl, List.length_replicate _ _⟩
    have hlmem : ∀ x ∈ List.range' 1 (m.buffer.length - 1),
        0 < x ∧ x ≤ m.buffer.length - 1 := by
      intro x hx
      rw [List.mem_range'_1] at hx
      omega
    obtain ⟨P', hinv', hPsub, hPl⟩ := transFold_run m.rows m.cols
      (m.buffer.length - 1) m.buffer.length hlasteq hlast m.buffer rfl
      (by omega) (List.range' 1 (m.buffer.length - 1)) hlmem
      (m.buffer, List.replicate m.buffer.length false) (fun _ => False) hinv0
    obtain ⟨hrange', hfwd', hbwd', hvisT', hvisF', hbufP', hbufN', hlb', hlv'⟩ :=
      hinv'
    have hres : (m.transpose).buffer = ((List.range' 1 (m.buffer.length - 1)).foldl
        (transBody m.rows (m.buffer.length - 1) (m.buffer.length + 1))
        (m.buffer, List.replicate m.buffer.length false)).1 := rfl
    refine ⟨rfl, ?_, ?_, ?_⟩
    · rw [hres]
      exact hlb'
    · intro n hn0 hnl
      have hPn : P' n := by
        refine hPl n ?_
        rw [List.mem_range'_1]
        omega
      rw [hres]
      exact hbufP' n hPn
    · intro n hn
      have hPn : ¬ P' n := by
        intro hP
        have := hrange' n hP
        omega
      rw [hres]
      exact hbufN' n hPn

/-- Claim C2: after `Transpose` of an `R x C` matrix with buffer length
`N = R*C`, the element that was at flat index `i` (for `0 < i < N-1`) is at
flat index `(R * i) % (N - 1)`, flat indices `0` and `N-1` hold their
original elements, and the row count equals the old column count. -/
theorem transpose_cycle_mapping (m : Mat α) (hdvd : m.rows ∣ m.buffer.length) :
    (m.transpose).rows = m.cols ∧
      (m.transpose).buffer[0]? = m.buffer[0]? ∧
      (m.transpose).buffer[m.buffer.length - 1]? =
        m.buffer[m.buffer.length - 1]? ∧
      (∀ i, 0 < i → i < m.buffer.length - 1 →
        (m.transpose).buffer[(m.rows * i) % (m.buffer.length - 1)]? =
          m.buffer[i]?) := by
  obtain ⟨h1, h2, h3, h4⟩ := transpose_master m hdvd
  refine ⟨h1, h4 0 (Or.inl rfl), ?_, ?_⟩
  · by_cases hl : m.buffer.length - 1 = 0
    · rw [hl]
      exact h4 0 (Or.inl rfl)
    · have hfix := h3 (m.buffer.length - 1) (by omega) (Nat.le_refl _)
      rw [tStep, if_pos rfl] at hfix
      exact hfix
  · intro i hi0 hil
    have hmove := h3 i hi0 (by omega)
    rw [tStep, if_neg (by omega)] at hmove
    exact hmove

/-- Claim C2, witness: transposing the 2x3 integer matrix `[[1,2,3],[4,5,6]]`
sends the element at flat index 1 to flat index `(2*1) % 5` and yields
exactly `[[1,4],[2,5],[3,6]]` with 3 rows. -/
theorem transpose_cycle_mapping_witness :
    ((Mat.mk 2 [(1 : Int), 2, 3, 4, 5, 6]).transpose).rows = 3 ∧
      ((Mat.mk 2 [(1 : Int), 2, 3, 4, 5, 6]).transpose).buffer[(2 * 1) % 5]? =
        (Mat.mk 2 [(1 : Int), 2, 3, 4, 5, 6]).buffer[1]? ∧
      (Mat.mk 2 [(1 : Int), 2, 3, 4, 5, 6]).transpose =
        Mat.mk 3 [1, 4, 2, 5, 3, 6] := by
  have h := transpose_cycle_mapping (Mat.mk 2 [(1 : Int), 2, 3, 4, 5, 6])
    ⟨3, rfl⟩
  exact ⟨h.1, h.2.2.2 1 (by decide) (by decide), by decide⟩

/-- Claim C7: `Transpose` is an involution; applying it twice restores the
matrix exactly in the sense of the source's `operator==`. -/
theorem transpose_involution [DecidableEq α] (m : Mat α)
    (hdvd : m.rows ∣ m.buffer.length) :
    matEq ((m.transpose).transpose) m = true := by
  obtain ⟨h1, h2, h3, h4⟩ := transpose_master m hdvd
  have hdvd' : (m.transpose).rows ∣ (m.transpose).buffer.length := by
    rw [h2, h1]
    rcases Nat.eq_zero_or_pos m.rows with h0 | hp
    · have hlen0 : m.buffer.length = 0 := by
        rw [h0] at hdvd
        exact Nat.eq_zero_of_zero_dvd hdvd
      rw [hlen0]
      exact Dvd.intro 0 rfl
    · refine ⟨m.rows, ?_⟩
      rw [Mat.cols, if_neg (by omega), Nat.mul_comm]
      exact (Nat.mul_div_cancel' hdvd).symm
  obtain ⟨g1, g2, g3, g4⟩ := transpose_master (m.transpose) hdvd'
  rw [matEq, beq_iff_eq]
  apply List.ext_getElem?
  intro p
  rcases Nat.eq_zero_or_pos p with hp0 | hpp
  · rw [hp0]
    exact (g4 0 (Or.inl rfl)).trans (h4 0 (Or.inl rfl))
  · by_cases hpl : m.buffer.length - 1 < p
    · refine (g4 p (Or.inr ?_)).trans (h4 p (Or.inr hpl))
      rw [h2]
      exact hpl
    · have hple : p ≤ m.buffer.length - 1 := by omega
      have hlast : 0 < m.buffer.length - 1 := by omega
      have hrpos : 0 < m.rows := by
        rcases Nat.eq_zero_or_pos m.rows with h0 | hp'
        · exfalso
          rw [h0] at hdvd
          have := Nat.eq_zero_of_zero_dvd hdvd
          omega
        · exact hp'
      have hmul : m.rows * m.cols = m.buffer.length := by
        rw [Mat.cols, if_neg (by omega)]
        exact Nat.mul_div_cancel' hdvd
      have hlasteq : (m.buffer.length - 1) + 1 = m.rows * m.cols := by omega
      have hq := tStep_pos_le m.rows m.cols (m.buffer.length - 1) hlasteq hlast
        p hpp hple
      have hinv := tStep_inverse m.rows m.cols (m.buffer.length - 1) hlasteq
        hlast p hpp hple
      have hg := g3 (tStep m.rows (m.buffer.length - 1) p) hq.1
        (by rw [h2]; exact hq.2)
      rw [h1, h2, hinv] at hg
      exact hg.trans (h3 p hpp hple)

/-- Claim C7, witness: double transpose of the 2x3 integer matrix
`[[1,2,3],[4,5,6]]` compares equal to the original under `operator==`. -/
theorem transpose_involution_witness :
    matEq (((Mat.mk 2 [(1 : Int), 2, 3, 4, 5, 6]).transpose).transpose)
      (Mat.mk 2 [(1 : Int), 2, 3, 4, 5, 6]) = true :=
  transpose_involution (Mat.mk 2 [(1 : Int), 2, 3, 4, 5, 6]) ⟨3, rfl⟩

end CpLinalg
